import Mathlib

set_option maxHeartbeats 1000000

/-!
Shallow embedding of `src/tools/7zip-parser/7zip-parser.py`.

The script's core is `parse_7z_listing`, which splits the input text into
lines, scans for a section delimited by lines starting with ten dashes, and
matches each line inside that section against a regular expression with
an optional date/time group, a mandatory five-character attribute field,
optional numeric size and compressed-size fields, and a name capture.

We embed the regular expression by a small abstract-syntax tree `RE` together
with a continuation-passing backtracking matcher `matchRE` that implements the
leftmost, greedy, backtracking semantics of Python's `re` module for the
constructs the pattern uses (character classes, concatenation, greedy `?`,
greedy `*`/`+` over character classes, capture groups, and the `$` anchor).
Characters are Lean `Char`s; strings are `List Char`.  The digit class of
the pattern is modelled as the full Unicode decimal-digit category (Nd, the
blocks of ten listed in `ndBlockStarts`), as Python matches it in a `str`
pattern, and the whitespace class as the whitespace code points of Python's
`re` module; `int` maps each digit to its value within its block.
-/

/-- Code points of the characters matched by the whitespace class of Python's
regular expressions (the source pattern's backslash-s). -/
def pySpaceVals : List Nat :=
  [9, 10, 11, 12, 13, 28, 29, 30, 31, 32, 133, 160, 5760,
   8192, 8193, 8194, 8195, 8196, 8197, 8198, 8199, 8200, 8201, 8202,
   8232, 8233, 8239, 8287, 12288]

/-- The whitespace character class of the source pattern. -/
def isPySpace (c : Char) : Bool := decide (c.toNat ∈ pySpaceVals)

/-- Start code points of the blocks of the Unicode decimal-digit category
(Nd).  Every block is ten consecutive code points, digit zero at the listed
start through digit nine at start plus nine; the source pattern's digit
class matches exactly these characters in a Python `str` pattern. -/
def ndBlockStarts : List Nat :=
  [0x30, 0x660, 0x6F0, 0x7C0, 0x966, 0x9E6, 0xA66, 0xAE6, 0xB66, 0xBE6,
   0xC66, 0xCE6, 0xD66, 0xDE6, 0xE50, 0xED0, 0xF20, 0x1040, 0x1090,
   0x17E0, 0x1810, 0x1946, 0x19D0, 0x1A80, 0x1A90, 0x1B50, 0x1BB0,
   0x1C40, 0x1C50, 0xA620, 0xA8D0, 0xA900, 0xA9D0, 0xA9F0, 0xAA50,
   0xABF0, 0xFF10, 0x104A0, 0x10D30, 0x11066, 0x110F0, 0x11136,
   0x111D0, 0x112F0, 0x11450, 0x114D0, 0x11650, 0x116C0, 0x11730,
   0x118E0, 0x11950, 0x11C50, 0x11D50, 0x11DA0, 0x11F50, 0x16A60,
   0x16AC0, 0x16B50, 0x1D7CE, 0x1D7D8, 0x1D7E2, 0x1D7EC, 0x1D7F6,
   0x1E140, 0x1E2F0, 0x1E4F0, 0x1E950, 0x1FBF0]

/-- The digit character class of the source pattern: any Unicode decimal
digit (category Nd), i.e. a member of one of the ten-code-point blocks. -/
def isPyDigit (c : Char) : Bool :=
  ndBlockStarts.any (fun s => decide (s ≤ c.toNat ∧ c.toNat ≤ s + 9))

/-- The attribute character class `[D\.]` of the source pattern: the
directory marker `D` or the placeholder `.`. -/
def isAttrChar (c : Char) : Bool := c == 'D' || c == '.'

/-- The class matched by `.` in the source pattern: any character except a
newline. -/
def isDotChar (c : Char) : Bool := c != '\n'

/-- Names for the six capture groups of the source pattern. -/
inductive GroupId where
  | gdate | gtime | gattr | gsize | gcomp | gname
deriving DecidableEq, Repr

/-- The capture environment: what each named group captured, if anything. -/
def Caps : Type := GroupId → Option (List Char)

/-- The environment in which no group has captured yet. -/
def emptyCaps : Caps := fun _ => none

/-- Record a capture for group `g`. -/
def setCap (caps : Caps) (g : GroupId) (v : List Char) : Caps :=
  fun g' => if g' = g then some v else caps g'

/-- Abstract syntax of the fragment of regular expressions used by the
source's `line_pattern`: single characters from a class, concatenation,
greedy option, greedy star and plus over a class, capture groups, and the
end anchor `$`. -/
inductive RE where
  | cls (p : Char → Bool)
  | seq (a b : RE)
  | opt (a : RE)
  | star (p : Char → Bool)
  | plus (p : Char → Bool)
  | group (g : GroupId) (a : RE)
  | eos

/-- Greedy matching of a character-class star: consume as many `p`-characters
as possible, backtracking one at a time into the continuation `k`. -/
def matchStar (p : Char → Bool) (k : List Char → Option α) : List Char → Option α
  | [] => k []
  | c :: cs =>
    if p c then (matchStar p k cs).orElse (fun _ => k (c :: cs))
    else k (c :: cs)

/-- The backtracking matcher, in continuation-passing style.  `matchRE r s
caps k` tries every way for `r` to match a prefix of `s`, in the order
Python's `re` engine tries them, calling the continuation `k` on the
remaining input and updated captures; the first success wins. -/
def matchRE : RE → List Char → Caps → (List Char → Caps → Option Caps) → Option Caps
  | .cls p, s, caps, k =>
    match s with
    | [] => none
    | c :: cs => if p c then k cs caps else none
  | .seq a b, s, caps, k =>
    matchRE a s caps (fun s' caps' => matchRE b s' caps' k)
  | .opt a, s, caps, k =>
    (matchRE a s caps k).orElse (fun _ => k s caps)
  | .star p, s, caps, k =>
    matchStar p (fun s' => k s' caps) s
  | .plus p, s, caps, k =>
    match s with
    | [] => none
    | c :: cs => if p c then matchStar p (fun s' => k s' caps) cs else none
  | .group g a, s, caps, k =>
    matchRE a s caps
      (fun s' caps' => k s' (setCap caps' g (s.take (s.length - s'.length))))
  | .eos, s, caps, k =>
    if s = [] || s = ['\n'] then k s caps else none

/-- Run a pattern against the start of a line, as Python's `re.match` does:
the pattern need not consume the whole line (the source pattern ends in `$`,
which anchors it itself). -/
def runMatch (r : RE) (s : List Char) : Option Caps :=
  matchRE r s emptyCaps (fun _ caps => some caps)

/-- A single digit class, `\d`. -/
def reD : RE := .cls isPyDigit

/-- A single literal character. -/
def chrRE (c : Char) : RE := .cls (fun x => x == c)

/-- The date token of the source pattern: `\d\d\d\d-\d\d-\d\d`. -/
def dateRE : RE :=
  .seq reD (.seq reD (.seq reD (.seq reD (.seq (chrRE '-')
    (.seq reD (.seq reD (.seq (chrRE '-') (.seq reD reD))))))))

/-- The time token of the source pattern: two digits, a colon, two digits, a
colon, two digits. -/
def timeRE : RE :=
  .seq reD (.seq reD (.seq (chrRE ':')
    (.seq reD (.seq reD (.seq (chrRE ':') (.seq reD reD))))))

/-- The attribute field of the source pattern: exactly five characters, each
the directory marker or the placeholder. -/
def attrRE : RE :=
  .seq (.cls isAttrChar) (.seq (.cls isAttrChar)
    (.seq (.cls isAttrChar) (.seq (.cls isAttrChar) (.cls isAttrChar))))

/-- The optional date/time group of the source pattern: a date capture, then
mandatory whitespace, then a time capture — both or neither. -/
def datetimeRE : RE :=
  .seq (.group .gdate dateRE) (.seq (.plus isPySpace) (.group .gtime timeRE))

/-- The full `line_pattern` of the source, group for group:
leading optional whitespace, the optional date/time group, mandatory
whitespace, the five-character attribute capture, an optional whitespace-plus
-digits size capture, an optional whitespace-plus-digits compressed capture,
mandatory whitespace, the name capture (the non-empty remainder), and the
end anchor. -/
def line_pattern : RE :=
  .seq (.star isPySpace)
  (.seq (.opt datetimeRE)
  (.seq (.plus isPySpace)
  (.seq (.group .gattr attrRE)
  (.seq (.opt (.seq (.plus isPySpace) (.group .gsize (.plus isPyDigit))))
  (.seq (.opt (.seq (.plus isPySpace) (.group .gcomp (.plus isPyDigit))))
  (.seq (.plus isPySpace)
  (.seq (.group .gname (.plus isDotChar)) .eos)))))))

/-- The decimal value of a Unicode digit code point: its offset inside its
block of ten. -/
def digitVal (n : Nat) : Nat :=
  match ndBlockStarts.find? (fun s => decide (s ≤ n ∧ n ≤ s + 9)) with
  | some s => n - s
  | none => 0

/-- Python's `int` on a string of Unicode decimal digits: each digit
contributes its decimal value. -/
def digitsToNat (s : List Char) : Nat :=
  s.foldl (fun n c => n * 10 + digitVal c.toNat) 0

/-- Python's `str.strip()`: remove leading and trailing whitespace. -/
def pyStrip (s : List Char) : List Char :=
  ((s.dropWhile isPySpace).reverse.dropWhile isPySpace).reverse

/-- One parsed listing entry, with the fields the source builds for each
matched line. -/
structure Entry where
  date : List Char
  time : List Char
  attr : List Char
  size : Nat
  compressed_size : Nat
  name : List Char
  is_directory : Bool
deriving DecidableEq, Repr

/-- Match one line against `line_pattern` and build the entry dictionary the
source appends, with its defaulting: a missing date or time becomes the
empty string, a missing size or compressed size becomes `int("0") = 0`,
the name is stripped, and `is_directory` holds when the attribute field
starts with the directory marker. -/
def matchLine (line : List Char) : Option Entry :=
  match runMatch line_pattern line with
  | none => none
  | some caps =>
    let date_str := (caps .gdate).getD []
    let time_str := (caps .gtime).getD []
    let attr := (caps .gattr).getD []
    let size_str := (caps .gsize).getD ['0']
    let compressed_str := (caps .gcomp).getD ['0']
    let name := pyStrip ((caps .gname).getD [])
    some { date := date_str
           time := time_str
           attr := attr
           size := digitsToNat size_str
           compressed_size := digitsToNat compressed_str
           name := name
           is_directory := ['D'].isPrefixOf attr }

/-- Code points of the characters at which Python's `str.splitlines` breaks
a line. -/
def lineBreakVals : List Nat := [10, 11, 12, 13, 28, 29, 30, 133, 8232, 8233]

/-- Whether a character is a line break for `str.splitlines`. -/
def isLineBreakChar (c : Char) : Bool := decide (c.toNat ∈ lineBreakVals)

/-- Worker for `splitlines`; `acc` holds the current line, reversed. -/
def splitlinesAux : List Char → List Char → List (List Char)
  | [], acc => if acc.isEmpty then [] else [acc.reverse]
  | '\r' :: '\n' :: rest, acc => acc.reverse :: splitlinesAux rest []
  | c :: rest, acc =>
    if isLineBreakChar c then acc.reverse :: splitlinesAux rest []
    else splitlinesAux rest (c :: acc)

/-- Python's `str.splitlines`: split at line-break characters, treating a
carriage return followed by a newline as a single break, with no empty
trailing line. -/
def splitlines (s : List Char) : List (List Char) := splitlinesAux s []

/-- The delimiter test of the source: `line.startswith("----------")`. -/
def startsWithDashes (line : List Char) : Bool :=
  (List.replicate 10 '-').isPrefixOf line

/-- The scanning loop of `parse_7z_listing` over the split lines, carrying
the `in_listing` flag: the first dash line flips the flag and is skipped, a
dash line seen while inside stops the loop, lines outside are ignored, and
lines inside are matched, unmatched ones silently dropped. -/
def parseLines : List (List Char) → Bool → List Entry
  | [], _ => []
  | line :: rest, in_listing =>
    if !in_listing && startsWithDashes line then parseLines rest true
    else if in_listing && startsWithDashes line then []
    else if !in_listing then parseLines rest false
    else
      match matchLine line with
      | none => parseLines rest in_listing
      | some e => e :: parseLines rest in_listing

/-- The source's `parse_7z_listing`: split the text into lines and scan. -/
def parse_7z_listing (text : String) : List Entry :=
  parseLines (splitlines text.data) false

/-- Whether a pattern contains no capture group. -/
def groupFree : RE → Bool
  | .cls _ => true
  | .seq a b => groupFree a && groupFree b
  | .opt a => groupFree a
  | .star _ => true
  | .plus _ => true
  | .group _ _ => false
  | .eos => true

/-!
A declarative semantics for the matcher.  `Matches r s s' c0 c1` says that
`r` can match the prefix of `s` ending at the suffix `s'`, turning the
capture environment `c0` into `c1`.  The backtracking matcher is sound for
this relation; soundness is what the invariant claims about matched entries
rest on.
-/

/-- Declarative matching relation for the regular-expression fragment. -/
inductive Matches : RE → List Char → List Char → Caps → Caps → Prop where
  | cls {p : Char → Bool} {c : Char} {cs : List Char} {caps : Caps} :
      p c = true → Matches (.cls p) (c :: cs) cs caps caps
  | seq {a b : RE} {s s1 s2 : List Char} {c0 c1 c2 : Caps} :
      Matches a s s1 c0 c1 → Matches b s1 s2 c1 c2 →
      Matches (.seq a b) s s2 c0 c2
  | optSome {a : RE} {s s1 : List Char} {c0 c1 : Caps} :
      Matches a s s1 c0 c1 → Matches (.opt a) s s1 c0 c1
  | optNone {a : RE} {s : List Char} {c0 : Caps} :
      Matches (.opt a) s s c0 c0
  | starNil {p : Char → Bool} {s : List Char} {c0 : Caps} :
      Matches (.star p) s s c0 c0
  | starCons {p : Char → Bool} {c : Char} {cs s1 : List Char} {c0 : Caps} :
      p c = true → Matches (.star p) cs s1 c0 c0 →
      Matches (.star p) (c :: cs) s1 c0 c0
  | plus {p : Char → Bool} {c : Char} {cs s1 : List Char} {c0 : Caps} :
      p c = true → Matches (.star p) cs s1 c0 c0 →
      Matches (.plus p) (c :: cs) s1 c0 c0
  | group {g : GroupId} {a : RE} {s s' : List Char} {c0 c1 : Caps} :
      Matches a s s' c0 c1 →
      Matches (.group g a) s s'
        c0 (setCap c1 g (s.take (s.length - s'.length)))
  | eos {s : List Char} {c0 : Caps} :
      s = [] ∨ s = ['\n'] → Matches .eos s s c0 c0

/-- Unfolding of `Option.orElse` applied to a successful result. -/
theorem orElse_eq_some_iff {α : Type _} {a : Option α} {b : Unit → Option α}
    {v : α} :
    a.orElse b = some v ↔ a = some v ∨ (a = none ∧ b () = some v) := by
  cases a <;> simp [Option.orElse]

/-- A star matches any run of characters from its class. -/
theorem matchesStar_of_run {p : Char → Bool} {W s' : List Char} {caps : Caps}
    (h : ∀ c ∈ W, p c = true) :
    Matches (.star p) (W ++ s') s' caps caps := by
  induction W with
  | nil => exact Matches.starNil
  | cons c cs ih =>
    exact Matches.starCons (h c (by simp))
      (ih (fun x hx => h x (by simp [hx])))

/-- Soundness of the star matcher: a success decomposes the input into a run
of class characters and a suffix accepted by the continuation. -/
theorem matchStar_sound {α : Type _} {p : Char → Bool}
    {k : List Char → Option α} :
    ∀ {s : List Char} {res : α}, matchStar p k s = some res →
    ∃ W s', s = W ++ s' ∧ (∀ c ∈ W, p c = true) ∧ k s' = some res := by
  intro s
  induction s with
  | nil =>
    intro res h
    exact ⟨[], [], rfl, by simp, h⟩
  | cons c cs ih =>
    intro res h
    rw [matchStar] at h
    by_cases hp : p c = true
    · rw [if_pos hp] at h
      rcases orElse_eq_some_iff.mp h with h' | ⟨_, h'⟩
      · obtain ⟨W, s', hs, hW, hk⟩ := ih h'
        refine ⟨c :: W, s', by simp [hs], ?_, hk⟩
        intro x hx
        rcases List.mem_cons.mp hx with rfl | hx
        · exact hp
        · exact hW x hx
      · exact ⟨[], c :: cs, rfl, by simp, h'⟩
    · rw [if_neg hp] at h
      exact ⟨[], c :: cs, rfl, by simp, h⟩

/-- Soundness of the backtracking matcher: any success factors through the
declarative relation and the continuation. -/
theorem matchRE_sound :
    ∀ {r : RE} {s : List Char} {caps : Caps}
      {k : List Char → Caps → Option Caps} {res : Caps},
    matchRE r s caps k = some res →
    ∃ s' caps', Matches r s s' caps caps' ∧ k s' caps' = some res := by
  intro r
  induction r with
  | cls p =>
    intro s caps k res h
    cases s with
    | nil => rw [matchRE] at h; exact absurd h (by simp)
    | cons c cs =>
      rw [matchRE] at h
      by_cases hp : p c = true
      · rw [if_pos hp] at h
        exact ⟨cs, caps, Matches.cls hp, h⟩
      · rw [if_neg hp] at h
        exact absurd h (by simp)
  | seq a b iha ihb =>
    intro s caps k res h
    rw [matchRE] at h
    obtain ⟨s1, c1, m1, h1⟩ := iha h
    obtain ⟨s2, c2, m2, h2⟩ := ihb h1
    exact ⟨s2, c2, Matches.seq m1 m2, h2⟩
  | opt a iha =>
    intro s caps k res h
    rw [matchRE] at h
    rcases orElse_eq_some_iff.mp h with h' | ⟨_, h'⟩
    · obtain ⟨s1, c1, m1, h1⟩ := iha h'
      exact ⟨s1, c1, Matches.optSome m1, h1⟩
    · exact ⟨s, caps, Matches.optNone, h'⟩
  | star p =>
    intro s caps k res h
    rw [matchRE] at h
    obtain ⟨W, s', hs, hW, hk⟩ := matchStar_sound h
    exact ⟨s', caps, hs ▸ matchesStar_of_run hW, hk⟩
  | plus p =>
    intro s caps k res h
    cases s with
    | nil => rw [matchRE] at h; exact absurd h (by simp)
    | cons c cs =>
      rw [matchRE] at h
      by_cases hp : p c = true
      · rw [if_pos hp] at h
        obtain ⟨W, s', hs, hW, hk⟩ := matchStar_sound h
        exact ⟨s', caps,
          Matches.plus hp (hs ▸ matchesStar_of_run hW), hk⟩
      · rw [if_neg hp] at h
        exact absurd h (by simp)
  | group g a iha =>
    intro s caps k res h
    rw [matchRE] at h
    obtain ⟨s', c', m, hk⟩ := iha h
    exact ⟨s', setCap c' g (s.take (s.length - s'.length)),
      Matches.group m, hk⟩
  | eos =>
    intro s caps k res h
    rw [matchRE] at h
    by_cases hc : s = [] ∨ s = ['\n']
    · have : (decide (s = []) || decide (s = ['\n'])) = true := by
        rcases hc with hc | hc <;> simp [hc]
      rw [if_pos this] at h
      exact ⟨s, caps, Matches.eos hc, h⟩
    · have : ¬((decide (s = []) || decide (s = ['\n'])) = true) := by
        simp only [Bool.or_eq_true, decide_eq_true_eq]
        exact hc
      rw [if_neg this] at h
      exact absurd h (by simp)

/-!
Inversion principles for the declarative relation, used to read the shape of
a matched line back off a derivation.
-/

/-- Reading a capture back: the set group. -/
theorem setCap_self {caps : Caps} {g : GroupId} {v : List Char} :
    setCap caps g v g = some v := by
  simp [setCap]

/-- Reading a capture back: any other group is untouched. -/
theorem setCap_other {caps : Caps} {g g' : GroupId} {v : List Char}
    (h : g' ≠ g) : setCap caps g v g' = caps g' := by
  simp [setCap, h]

/-- Inversion for concatenation. -/
theorem seq_inv {a b : RE} {s s2 : List Char} {c0 c2 : Caps}
    (h : Matches (.seq a b) s s2 c0 c2) :
    ∃ s1 c1, Matches a s s1 c0 c1 ∧ Matches b s1 s2 c1 c2 := by
  cases h with
  | seq m1 m2 => exact ⟨_, _, m1, m2⟩

/-- Inversion for a single class character. -/
theorem cls_inv {p : Char → Bool} {s s' : List Char} {c0 c1 : Caps}
    (h : Matches (.cls p) s s' c0 c1) :
    ∃ c, s = c :: s' ∧ p c = true ∧ c1 = c0 := by
  cases h with
  | cls hp => exact ⟨_, rfl, hp, rfl⟩

/-- Inversion for a greedy option. -/
theorem opt_inv {a : RE} {s s1 : List Char} {c0 c1 : Caps}
    (h : Matches (.opt a) s s1 c0 c1) :
    Matches a s s1 c0 c1 ∨ (s1 = s ∧ c1 = c0) := by
  cases h with
  | optSome m => exact Or.inl m
  | optNone => exact Or.inr ⟨rfl, rfl⟩

/-- Inversion for a class star: the consumed prefix is a run of class
characters, and captures are untouched. -/
theorem reStar_inv {p : Char → Bool} :
    ∀ {s s' : List Char} {c0 c1 : Caps}, Matches (.star p) s s' c0 c1 →
    ∃ W, s = W ++ s' ∧ (∀ c ∈ W, p c = true) ∧ c1 = c0 := by
  intro s
  induction s with
  | nil =>
    intro s' c0 c1 h
    cases h with
    | starNil => exact ⟨[], rfl, by simp, rfl⟩
  | cons c cs ih =>
    intro s' c0 c1 h
    cases h with
    | starNil => exact ⟨[], rfl, by simp, rfl⟩
    | starCons hp m =>
      obtain ⟨W, hW1, hW2, hW3⟩ := ih m
      refine ⟨c :: W, by simp [hW1], ?_, hW3⟩
      intro x hx
      rcases List.mem_cons.mp hx with rfl | hx
      · exact hp
      · exact hW2 x hx

/-- Inversion for a class plus: at least one class character is consumed. -/
theorem plus_inv {p : Char → Bool} {s s' : List Char} {c0 c1 : Caps}
    (h : Matches (.plus p) s s' c0 c1) :
    ∃ c W, s = c :: (W ++ s') ∧ p c = true ∧ (∀ x ∈ W, p x = true) ∧
      c1 = c0 := by
  cases h with
  | plus hp m =>
    obtain ⟨W, hW1, hW2, hW3⟩ := reStar_inv m
    exact ⟨_, W, by simp [hW1], hp, hW2, hW3⟩

/-- Inversion for a capture group. -/
theorem group_inv {g : GroupId} {a : RE} {s s' : List Char} {c0 c1 : Caps}
    (h : Matches (.group g a) s s' c0 c1) :
    ∃ cm, Matches a s s' c0 cm ∧
      c1 = setCap cm g (s.take (s.length - s'.length)) := by
  cases h with
  | group m => exact ⟨_, m, rfl⟩

/-- Inversion for the end anchor. -/
theorem eos_inv {s s' : List Char} {c0 c1 : Caps}
    (h : Matches .eos s s' c0 c1) :
    s' = s ∧ (s = [] ∨ s = ['\n']) ∧ c1 = c0 := by
  cases h with
  | eos hc => exact ⟨rfl, hc, rfl⟩

/-- A match only ever consumes a prefix. -/
theorem matches_consumes {r : RE} {s s' : List Char} {c0 c1 : Caps}
    (h : Matches r s s' c0 c1) : ∃ t, s = t ++ s' := by
  induction h with
  | @cls p c cs caps hp => exact ⟨[c], rfl⟩
  | seq _ _ ih1 ih2 =>
    obtain ⟨t1, h1⟩ := ih1
    obtain ⟨t2, h2⟩ := ih2
    exact ⟨t1 ++ t2, by simp [h1, h2]⟩
  | optSome _ ih => exact ih
  | optNone => exact ⟨[], rfl⟩
  | starNil => exact ⟨[], rfl⟩
  | @starCons p c cs s1 c0 hp m ih =>
    obtain ⟨t, ht⟩ := ih
    exact ⟨c :: t, by rw [ht]; rfl⟩
  | @plus p c cs s1 c0 hp m ih =>
    obtain ⟨t, ht⟩ := ih
    exact ⟨c :: t, by rw [ht]; rfl⟩
  | group _ ih => exact ih
  | eos _ => exact ⟨[], rfl⟩

/-- A group-free pattern leaves the captures unchanged. -/
theorem matches_groupFree_caps {r : RE} {s s' : List Char} {c0 c1 : Caps}
    (h : Matches r s s' c0 c1) (hg : groupFree r = true) : c1 = c0 := by
  induction h with
  | cls _ => rfl
  | seq _ _ ih1 ih2 =>
    rw [groupFree, Bool.and_eq_true] at hg
    rw [ih2 hg.2, ih1 hg.1]
  | optSome _ ih => exact ih hg
  | optNone => rfl
  | starNil => rfl
  | starCons _ _ ih => rfl
  | plus _ _ ih => rfl
  | group _ ih => exact absurd hg (by simp [groupFree])
  | eos _ => rfl

/-- The capture of a group is the consumed prefix. -/
theorem take_consumed (t s' : List Char) :
    (t ++ s').take ((t ++ s').length - s'.length) = t := by
  rw [List.length_append, Nat.add_sub_cancel, List.take_left]

/-- Inversion for the date token: ten characters are consumed, the first a
digit, and captures are untouched. -/
theorem dateRE_inv {s s' : List Char} {c0 c1 : Caps}
    (h : Matches dateRE s s' c0 c1) :
    ∃ d t, s = (d :: t) ++ s' ∧ isPyDigit d = true ∧ c1 = c0 := by
  obtain ⟨s1, cm, h1, h2⟩ := seq_inv h
  obtain ⟨d, hs1, hd, _⟩ := cls_inv h1
  obtain ⟨t, ht⟩ := matches_consumes h2
  refine ⟨d, t, by simp [hs1, ht], hd, ?_⟩
  exact matches_groupFree_caps h (by rfl)

/-- Inversion for the time token: at least one character is consumed and
captures are untouched. -/
theorem timeRE_inv {s s' : List Char} {c0 c1 : Caps}
    (h : Matches timeRE s s' c0 c1) :
    ∃ d t, s = (d :: t) ++ s' ∧ c1 = c0 := by
  obtain ⟨s1, cm, h1, h2⟩ := seq_inv h
  obtain ⟨d, hs1, _, _⟩ := cls_inv h1
  obtain ⟨t, ht⟩ := matches_consumes h2
  refine ⟨d, t, by simp [hs1, ht], ?_⟩
  exact matches_groupFree_caps h (by rfl)

/-- Inversion for the attribute field: exactly five attribute-class
characters are consumed and captures are untouched. -/
theorem attrRE_inv {s s' : List Char} {c0 c1 : Caps}
    (h : Matches attrRE s s' c0 c1) :
    ∃ A, s = A ++ s' ∧ A.length = 5 ∧ (∀ c ∈ A, isAttrChar c = true) ∧
      c1 = c0 := by
  obtain ⟨t1, d1, h1, hr⟩ := seq_inv h
  obtain ⟨a1, he1, ha1, _⟩ := cls_inv h1
  obtain ⟨t2, d2, h2, hr⟩ := seq_inv hr
  obtain ⟨a2, he2, ha2, _⟩ := cls_inv h2
  obtain ⟨t3, d3, h3, hr⟩ := seq_inv hr
  obtain ⟨a3, he3, ha3, _⟩ := cls_inv h3
  obtain ⟨t4, d4, h4, hr⟩ := seq_inv hr
  obtain ⟨a4, he4, ha4, _⟩ := cls_inv h4
  obtain ⟨a5, he5, ha5, _⟩ := cls_inv hr
  refine ⟨[a1, a2, a3, a4, a5], by simp [he1, he2, he3, he4, he5], rfl, ?_,
    matches_groupFree_caps h (by rfl)⟩
  intro c hc
  simp only [List.mem_cons, List.not_mem_nil, or_false] at hc
  rcases hc with rfl | rfl | rfl | rfl | rfl
  · exact ha1
  · exact ha2
  · exact ha3
  · exact ha4
  · exact ha5

/-- Inversion for an optional numeric field (the size and compressed-size
groups): either nothing is consumed and captures are untouched, or some
whitespace and a non-empty digit capture are consumed, setting only the
given group. -/
theorem optNum_inv {gid : GroupId} {s s1 : List Char} {c0 c1 : Caps}
    (h : Matches (.opt (.seq (.plus isPySpace)
      (.group gid (.plus isPyDigit)))) s s1 c0 c1) :
    (s1 = s ∧ c1 = c0) ∨
    (∃ V, V ≠ [] ∧ c1 = setCap c0 gid V ∧ ∃ t, s = t ++ s1) := by
  rcases opt_inv h with hm | hn
  · obtain ⟨sm, cm, hws, hgrp⟩ := seq_inv hm
    obtain ⟨_, _, _, _, _, hcm⟩ := plus_inv hws
    obtain ⟨cg, hdig, hset⟩ := group_inv hgrp
    obtain ⟨d, W, hsm, _, _, hcg⟩ := plus_inv hdig
    obtain ⟨t0, ht0⟩ := matches_consumes hm
    refine Or.inr ⟨sm.take (sm.length - s1.length), ?_, ?_, t0, ht0⟩
    · rw [hsm]
      rw [show (d :: (W ++ s1)) = (d :: W) ++ s1 from by simp]
      rw [take_consumed]
      simp
    · rw [hset, hcg, hcm]
  · exact Or.inl hn

/-- Master inversion of a successful match of the full line pattern: the
attribute capture is five attribute-class characters, the raw name capture
is non-empty, the date and time captures are present together or absent
together, and the line starts with whitespace, or with a digit when the
date matched. -/
theorem runMatch_extract {line : List Char} {caps : Caps}
    (h : runMatch line_pattern line = some caps) :
    ∃ A N,
      caps .gattr = some A ∧ A.length = 5 ∧
      (∀ c ∈ A, isAttrChar c = true) ∧
      caps .gname = some N ∧ N ≠ [] ∧
      ((caps .gdate = none ∧ caps .gtime = none ∧
          ∃ c0 t, line = c0 :: t ∧ isPySpace c0 = true) ∨
       (∃ D T, caps .gdate = some D ∧ caps .gtime = some T ∧
          D ≠ [] ∧ T ≠ [] ∧
          ∃ c0 t, line = c0 :: t ∧
            (isPySpace c0 = true ∨ isPyDigit c0 = true))) := by
  obtain ⟨send, capsF, hm, hk⟩ := matchRE_sound h
  have hcf : capsF = caps := Option.some.inj hk
  rw [hcf] at hm
  obtain ⟨s1, c1, hstar, hm⟩ := seq_inv hm
  obtain ⟨S, hlineS, hSsp, hc1⟩ := reStar_inv hstar
  obtain ⟨s2, c2, hopt, hm⟩ := seq_inv hm
  obtain ⟨s3, c3, hws1, hm⟩ := seq_inv hm
  obtain ⟨pc, P, hs2, hpc, hP, hc3⟩ := plus_inv hws1
  obtain ⟨s4, c4, hgattrM, hm⟩ := seq_inv hm
  obtain ⟨cm, hattrm, hc4⟩ := group_inv hgattrM
  obtain ⟨A, hs3, hAlen, hAattr, hcm⟩ := attrRE_inv hattrm
  obtain ⟨s5, c5, hosize, hm⟩ := seq_inv hm
  obtain ⟨s6, c6, hocomp, hm⟩ := seq_inv hm
  obtain ⟨s7, c7, hws2, hm⟩ := seq_inv hm
  obtain ⟨qc, Q, hs6, hqc, hQ, hc7⟩ := plus_inv hws2
  obtain ⟨s8, c8, hgnameM, heos⟩ := seq_inv hm
  obtain ⟨cn, hnamem, hc8⟩ := group_inv hgnameM
  obtain ⟨n0, NW, hs7, hn0, hNW, hcn⟩ := plus_inv hnamem
  obtain ⟨hsend, _, hcapsF⟩ := eos_inv heos
  have hNcap : s7.take (s7.length - s8.length) = n0 :: NW := by
    rw [hs7]; exact take_consumed (n0 :: NW) s8
  have hAcap : s3.take (s3.length - s4.length) = A := by
    rw [hs3]; exact take_consumed A s4
  have hcaps : caps = setCap cn .gname (n0 :: NW) := by
    rw [hcapsF, hc8, hNcap]
  have hcn6 : cn = c6 := by rw [hcn, hc7]
  have hc4' : c4 = setCap c2 .gattr A := by
    rw [hc4, hAcap, hcm, hc3]
  have hattrRead : caps .gattr = some A := by
    rcases optNum_inv hocomp with ⟨_, hc6⟩ | ⟨V, _, hc6, _⟩ <;>
    rcases optNum_inv hosize with ⟨_, hc5⟩ | ⟨V', _, hc5, _⟩ <;>
    simp [hcaps, hcn6, hc6, hc5, hc4', setCap]
  have hnameRead : caps .gname = some (n0 :: NW) := by
    rw [hcaps, setCap_self]
  have hreadDate : caps .gdate = c2 .gdate := by
    rcases optNum_inv hocomp with ⟨_, hc6⟩ | ⟨V, _, hc6, _⟩ <;>
    rcases optNum_inv hosize with ⟨_, hc5⟩ | ⟨V', _, hc5, _⟩ <;>
    simp [hcaps, hcn6, hc6, hc5, hc4', setCap]
  have hreadTime : caps .gtime = c2 .gtime := by
    rcases optNum_inv hocomp with ⟨_, hc6⟩ | ⟨V, _, hc6, _⟩ <;>
    rcases optNum_inv hosize with ⟨_, hc5⟩ | ⟨V', _, hc5, _⟩ <;>
    simp [hcaps, hcn6, hc6, hc5, hc4', setCap]
  refine ⟨A, n0 :: NW, hattrRead, hAlen, hAattr, hnameRead, by simp, ?_⟩
  rcases opt_inv hopt with hdt | ⟨hs2eq, hc2⟩
  · obtain ⟨sd, cd, hgdate, hrest⟩ := seq_inv hdt
    obtain ⟨cdm, hdatem, hcd⟩ := group_inv hgdate
    obtain ⟨d0, dtl, hs1eq, hd0, hcdm⟩ := dateRE_inv hdatem
    obtain ⟨st, cw, hwsm, hgtime⟩ := seq_inv hrest
    obtain ⟨wc, WW, hsdeq, hwc, hWW, hcw⟩ := plus_inv hwsm
    obtain ⟨ctm, htimem, hc2'⟩ := group_inv hgtime
    obtain ⟨t0, ttl, hsteq, hctm⟩ := timeRE_inv htimem
    have hDcap : s1.take (s1.length - sd.length) = d0 :: dtl := by
      rw [hs1eq]; exact take_consumed (d0 :: dtl) sd
    have hTcap : st.take (st.length - s2.length) = t0 :: ttl := by
      rw [hsteq]; exact take_consumed (t0 :: ttl) s2
    refine Or.inr ⟨d0 :: dtl, t0 :: ttl, ?_, ?_, by simp, by simp, ?_⟩
    · rw [hreadDate, hc2', hctm, hcw, hcd]
      simp [hDcap, setCap]
    · rw [hreadTime, hc2', hTcap, setCap_self]
    · cases S with
      | nil =>
        simp only [List.nil_append] at hlineS
        exact ⟨d0, dtl ++ sd, by rw [hlineS, hs1eq]; rfl, Or.inr hd0⟩
      | cons c0 S' =>
        exact ⟨c0, S' ++ s1, by rw [hlineS]; rfl, Or.inl (hSsp c0 (by simp))⟩
  · refine Or.inl ⟨?_, ?_, ?_⟩
    · rw [hreadDate, hc2, hc1]; rfl
    · rw [hreadTime, hc2, hc1]; rfl
    · cases S with
      | nil =>
        simp only [List.nil_append] at hlineS
        exact ⟨pc, P ++ s3, by rw [hlineS, ← hs2eq, hs2], hpc⟩
      | cons c0 S' =>
        exact ⟨c0, S' ++ s1, by rw [hlineS]; rfl, hSsp c0 (by simp)⟩

/-!
Evaluation lemmas for the matcher, used to compute the result of the
pattern on lines of a known shape (the completeness side of the claims).
-/

/-- Whitespace characters are not digits: no whitespace code point lies in
any block of the decimal-digit category. -/
theorem pySpace_not_digit {c : Char} (h : isPySpace c = true) :
    isPyDigit c = false := by
  rw [isPySpace, decide_eq_true_eq] at h
  have hall : ∀ n ∈ pySpaceVals,
      (ndBlockStarts.any (fun s => decide (s ≤ n ∧ n ≤ s + 9))) = false := by
    decide
  rw [isPyDigit]
  exact hall c.toNat h

/-- Attribute characters are not whitespace. -/
theorem attrChar_not_space {c : Char} (h : isAttrChar c = true) :
    isPySpace c = false := by
  rw [isAttrChar, Bool.or_eq_true, beq_iff_eq, beq_iff_eq] at h
  rcases h with rfl | rfl <;> rfl

/-- Attribute characters are not digits. -/
theorem attrChar_not_digit {c : Char} (h : isAttrChar c = true) :
    isPyDigit c = false := by
  rw [isAttrChar, Bool.or_eq_true, beq_iff_eq, beq_iff_eq] at h
  rcases h with rfl | rfl <;> decide

/-- If the continuation fails on every suffix reachable by consuming a run
of class characters, the star matcher fails. -/
theorem matchStar_none {α : Type _} {p : Char → Bool}
    {k : List Char → Option α} :
    ∀ {s : List Char},
    (∀ W s', s = W ++ s' → (∀ c ∈ W, p c = true) → k s' = none) →
    matchStar p k s = none := by
  intro s
  induction s with
  | nil =>
    intro h
    rw [matchStar]
    exact h [] [] rfl (by simp)
  | cons c cs ih =>
    intro h
    rw [matchStar]
    by_cases hp : p c = true
    · rw [if_pos hp]
      have h1 : matchStar p k cs = none := by
        apply ih
        intro W s' hW hWp
        refine h (c :: W) s' (by simp [hW]) ?_
        intro x hx
        rcases List.mem_cons.mp hx with rfl | hx
        · exact hp
        · exact hWp x hx
      have h2 : k (c :: cs) = none := h [] (c :: cs) rfl (by simp)
      rw [h1]
      have h3 : (none : Option α).orElse (fun _ => k (c :: cs)) = k (c :: cs) :=
        rfl
      rw [h3, h2]
    · rw [if_neg hp]
      exact h [] (c :: cs) rfl (by simp)

/-- When the continuation succeeds at the end of the leading class run (the
greedy optimum), the star matcher returns exactly that success. -/
theorem matchStar_runEnd {α : Type _} {p : Char → Bool}
    {k : List Char → Option α} {v : α} :
    ∀ {W r : List Char}, (∀ c ∈ W, p c = true) →
    (∀ c, r.head? = some c → p c = false) →
    k r = some v → matchStar p k (W ++ r) = some v := by
  intro W
  induction W with
  | nil =>
    intro r hW hr hk
    cases r with
    | nil => rw [List.nil_append, matchStar]; exact hk
    | cons c cs =>
      rw [List.nil_append, matchStar, if_neg (by simp [hr c rfl])]
      exact hk
  | cons c cs ih =>
    intro r hW hr hk
    rw [List.cons_append, matchStar, if_pos (hW c (by simp))]
    rw [ih (fun x hx => hW x (by simp [hx])) hr hk]
    rfl

/-- When the continuation fails at the end of the run but succeeds after the
star gives back one final character, the star matcher returns that success
(the first backtracking step of the greedy star). -/
theorem matchStar_giveback {α : Type _} {p : Char → Bool}
    {k : List Char → Option α} {v : α} :
    ∀ {W r : List Char}, W ≠ [] → (∀ c ∈ W, p c = true) →
    (∀ c, r.head? = some c → p c = false) →
    k r = none → (∀ x, p x = true → k (x :: r) = some v) →
    matchStar p k (W ++ r) = some v := by
  intro W
  induction W with
  | nil => intro r h; exact absurd rfl h
  | cons c cs ih =>
    intro r _ hW hr hk0 hk1
    rw [List.cons_append, matchStar, if_pos (hW c (by simp))]
    cases cs with
    | nil =>
      have h1 : matchStar p k r = none := by
        cases r with
        | nil => rw [matchStar]; exact hk0
        | cons x xs => rw [matchStar, if_neg (by simp [hr x rfl])]; exact hk0
      rw [List.nil_append, h1]
      have h2 : k (c :: r) = some v := hk1 c (hW c (by simp))
      have h3 : (none : Option α).orElse (fun _ => k (c :: r)) = k (c :: r) :=
        rfl
      rw [h3, h2]
    | cons c2 cs2 =>
      rw [ih (by simp) (fun x hx => hW x (by simp [hx])) hr hk0 hk1]
      rfl

/-- A list of length five is a five-element list. -/
theorem exists_five {l : List Char} (h : l.length = 5) :
    ∃ a b c d e, l = [a, b, c, d, e] := by
  cases l with
  | nil => simp at h
  | cons a l =>
    cases l with
    | nil => simp at h
    | cons b l =>
      cases l with
      | nil => simp at h
      | cons c l =>
        cases l with
        | nil => simp at h
        | cons d l =>
          cases l with
          | nil => simp at h
          | cons e l =>
            cases l with
            | nil => exact ⟨a, b, c, d, e, rfl⟩
            | cons f l =>
              simp only [List.length_cons, List.length_nil] at h
              omega

/-- The date/time group fails on any input not starting with a digit. -/
theorem datetime_fails {y : Char} {t : List Char} {c : Caps}
    {K : List Char → Caps → Option Caps} (h : isPyDigit y = false) :
    matchRE datetimeRE (y :: t) c K = none := by
  simp [datetimeRE, dateRE, reD, matchRE, h]

/-- A star matcher applied directly at a character its class rejects (or at
the end of input) just runs its continuation. -/
theorem matchStar_head_stop {α : Type _} {p : Char → Bool}
    {k : List Char → Option α} {v : α} {r : List Char}
    (hr : ∀ c, r.head? = some c → p c = false) (hk : k r = some v) :
    matchStar p k r = some v := by
  have h := @matchStar_runEnd α p k v [] r (by simp) hr hk
  simpa using h

/-- An optional whitespace-then-digits group fails on whitespace followed by
input that starts with a non-digit, non-whitespace character: there is no
digit for the mandatory digit run to consume. -/
theorem optNum_fails {gid : GroupId} {ws2 nm : List Char} {c : Caps}
    {K : List Char → Caps → Option Caps}
    (hws2 : ∀ x ∈ ws2, isPySpace x = true)
    (hnmne : nm ≠ [])
    (hn0sp : ∀ x, nm.head? = some x → isPySpace x = false)
    (hn0dg : ∀ x, nm.head? = some x → isPyDigit x = false) :
    matchRE (.seq (.plus isPySpace) (.group gid (.plus isPyDigit)))
      (ws2 ++ nm) c K = none := by
  cases ws2 with
  | nil =>
    cases nm with
    | nil => exact absurd rfl hnmne
    | cons n0 nr =>
      rw [List.nil_append, matchRE, matchRE,
        if_neg (by simp [hn0sp n0 rfl])]
  | cons w ws2' =>
    rw [List.cons_append, matchRE, matchRE, if_pos (hws2 w (by simp))]
    apply matchStar_none
    intro W s' hsplit hW
    have hhead : ∃ h t, s' = h :: t ∧ isPyDigit h = false := by
      rcases List.append_eq_append_iff.mp hsplit with ⟨al, hWa, hnma⟩ |
        ⟨cl, hwa, hsa⟩
      · cases al with
        | nil =>
          rw [List.nil_append] at hnma
          cases nm with
          | nil => exact absurd rfl hnmne
          | cons n0 nr => exact ⟨n0, nr, hnma.symm, hn0dg n0 rfl⟩
        | cons x xs =>
          have hx : isPySpace x = true := hW x (by simp [hWa])
          have hx' : isPySpace x = false := by
            apply hn0sp
            rw [hnma]
            rfl
          rw [hx] at hx'
          exact absurd hx' (by simp)
      · cases cl with
        | nil =>
          rw [List.nil_append] at hsa
          cases nm with
          | nil => exact absurd rfl hnmne
          | cons n0 nr => exact ⟨n0, nr, hsa, hn0dg n0 rfl⟩
        | cons x xs =>
          have hx : isPySpace x = true := hws2 x (by simp [hwa])
          exact ⟨x, xs ++ nm, by rw [hsa]; rfl, pySpace_not_digit hx⟩
    obtain ⟨hd, tl, rfl, hh⟩ := hhead
    rw [matchRE, matchRE, if_neg (by simp [hh])]

/-- Unfolding of `Option.orElse` when the first alternative failed. -/
theorem optNone_orElse {α : Type _} (o : Unit → Option α) :
    (none : Option α).orElse o = o () := rfl

/-- Full evaluation of the line pattern on a line of the shape
whitespace, attribute field, whitespace, bare name (the name starting with
neither a digit nor whitespace): exactly the attribute and the name are
captured, so the entry defaults its date, time, size and compressed size. -/
theorem matchLine_attr_name
    {ws1 A ws2 nm : List Char}
    (hws1ne : ws1 ≠ []) (hws1 : ∀ c ∈ ws1, isPySpace c = true)
    (hAlen : A.length = 5) (hA : ∀ c ∈ A, isAttrChar c = true)
    (hws2ne : ws2 ≠ []) (hws2 : ∀ c ∈ ws2, isPySpace c = true)
    (hnmne : nm ≠ []) (hnm : ∀ c ∈ nm, isDotChar c = true)
    (hn0sp : ∀ c, nm.head? = some c → isPySpace c = false)
    (hn0dg : ∀ c, nm.head? = some c → isPyDigit c = false) :
    matchLine (ws1 ++ A ++ ws2 ++ nm) = some
      { date := [], time := [], attr := A, size := 0, compressed_size := 0,
        name := pyStrip nm, is_directory := ['D'].isPrefixOf A } := by
  obtain ⟨a1, a2, a3, a4, a5, rfl⟩ := exists_five hAlen
  have ha1 : isAttrChar a1 = true := hA a1 (by simp)
  have ha2 : isAttrChar a2 = true := hA a2 (by simp)
  have ha3 : isAttrChar a3 = true := hA a3 (by simp)
  have ha4 : isAttrChar a4 = true := hA a4 (by simp)
  have ha5 : isAttrChar a5 = true := hA a5 (by simp)
  have ha1sp : isPySpace a1 = false := attrChar_not_space ha1
  have ha1dg : isPyDigit a1 = false := attrChar_not_digit ha1
  cases nm with
  | nil => exact absurd rfl hnmne
  | cons n0 nr =>
  cases ws2 with
  | nil => exact absurd rfl hws2ne
  | cons w0 wr =>
  have hn0dot : isDotChar n0 = true := hnm n0 (by simp)
  have hn0sp' : isPySpace n0 = false := hn0sp n0 rfl
  have hw0 : isPySpace w0 = true := hws2 w0 (by simp)
  have hcapsv :
      runMatch line_pattern
        (ws1 ++ [a1, a2, a3, a4, a5] ++ (w0 :: wr) ++ (n0 :: nr)) =
      some (setCap (setCap emptyCaps .gattr [a1, a2, a3, a4, a5])
        .gname (n0 :: nr)) := by
    rw [runMatch, line_pattern, List.append_assoc, List.append_assoc,
      matchRE, matchRE]
    apply matchStar_giveback hws1ne hws1
    · intro c hc
      simp only [List.cons_append, List.head?] at hc
      cases hc
      exact ha1sp
    · show matchRE _ ([a1, a2, a3, a4, a5] ++ ((w0 :: wr) ++ (n0 :: nr)))
        emptyCaps _ = none
      rw [List.cons_append, matchRE, matchRE, datetime_fails ha1dg,
        optNone_orElse, matchRE, matchRE, if_neg (by simp [ha1sp])]
    · intro x hx
      show matchRE _
        (x :: ([a1, a2, a3, a4, a5] ++ ((w0 :: wr) ++ (n0 :: nr))))
        emptyCaps _ = _
      rw [matchRE, matchRE, datetime_fails (pySpace_not_digit hx),
        optNone_orElse, matchRE, matchRE, if_pos hx]
      apply matchStar_head_stop
      · intro c hc
        simp only [List.cons_append, List.head?] at hc
        cases hc
        exact ha1sp
      · show matchRE _
          (a1 :: a2 :: a3 :: a4 :: a5 :: ((w0 :: wr) ++ (n0 :: nr)))
          emptyCaps _ = _
        rw [matchRE, matchRE, attrRE, matchRE, matchRE, if_pos ha1,
          matchRE, matchRE, if_pos ha2, matchRE, matchRE, if_pos ha3,
          matchRE, matchRE, if_pos ha4, matchRE, if_pos ha5]
        rw [show (a1 :: a2 :: a3 :: a4 :: a5 ::
            ((w0 :: wr) ++ (n0 :: nr))).take
            ((a1 :: a2 :: a3 :: a4 :: a5 ::
              ((w0 :: wr) ++ (n0 :: nr))).length -
             ((w0 :: wr) ++ (n0 :: nr)).length) = [a1, a2, a3, a4, a5] from
          take_consumed [a1, a2, a3, a4, a5] ((w0 :: wr) ++ (n0 :: nr))]
        rw [matchRE, matchRE, optNum_fails hws2 (by simp) hn0sp hn0dg,
          optNone_orElse]
        rw [matchRE, matchRE, optNum_fails hws2 (by simp) hn0sp hn0dg,
          optNone_orElse]
        rw [List.cons_append, matchRE, matchRE, if_pos hw0]
        apply matchStar_runEnd
          (fun c hc => hws2 c (List.mem_cons_of_mem w0 hc))
        · intro c hc
          simp only [List.head?] at hc
          cases hc
          exact hn0sp'
        · show matchRE _ (n0 :: nr) _ _ = _
          rw [matchRE, matchRE, matchRE, if_pos hn0dot]
          rw [← List.append_nil nr]
          apply matchStar_runEnd
            (fun c hc => hnm c (List.mem_cons_of_mem n0 (by simpa using hc)))
          · intro c hc
            exact absurd hc (by simp)
          · show matchRE .eos [] _ _ = _
            rw [matchRE, if_pos (by simp)]
            simp
  rw [matchLine, hcapsv]
  rfl

/-!
Characterization of the scanning loop: inside the listing the loop is a
filtered map of the matcher over the lines up to the closing dash line,
outside it discards everything up to and including the opening dash line.
-/

/-- Inside the listing, the loop matches each line until the next dash line
and silently drops the lines that fail to match. -/
theorem parseLines_inside (lines : List (List Char)) :
    parseLines lines true =
    (lines.takeWhile (fun l => !startsWithDashes l)).filterMap matchLine := by
  induction lines with
  | nil => rfl
  | cons l rest ih =>
    by_cases hd : startsWithDashes l = true
    · simp [parseLines, hd, List.takeWhile_cons]
    · rw [Bool.not_eq_true] at hd
      cases hml : matchLine l with
      | none =>
        simp [parseLines, hd, hml, List.takeWhile_cons, List.filterMap_cons,
          ih]
      | some e =>
        simp [parseLines, hd, hml, List.takeWhile_cons, List.filterMap_cons,
          ih]

/-- Outside the listing, the loop discards every line up to and including
the first dash line, then continues inside. -/
theorem parseLines_outside (lines : List (List Char)) :
    parseLines lines false =
    parseLines ((lines.dropWhile (fun l => !startsWithDashes l)).drop 1)
      true := by
  induction lines with
  | nil => rfl
  | cons l rest ih =>
    by_cases hd : startsWithDashes l = true
    · simp [parseLines, hd, List.dropWhile_cons]
    · rw [Bool.not_eq_true] at hd
      simp [parseLines, hd, List.dropWhile_cons, ih]

/-- Total characterization of the parser: split the text into lines, drop
everything up to and including the first dash line, keep the lines up to the
next dash line, and filter-map the line matcher over those. -/
theorem parse_characterization (text : String) :
    parse_7z_listing text =
    ((((splitlines text.data).dropWhile
        (fun l => !startsWithDashes l)).drop 1).takeWhile
      (fun l => !startsWithDashes l)).filterMap matchLine := by
  rw [parse_7z_listing, parseLines_outside, parseLines_inside]

/-- Dropping while a predicate holds skips over a block where it holds. -/
theorem dropWhile_append_all {α : Type _} {p : α → Bool} {a l : List α}
    (h : ∀ x ∈ a, p x = true) :
    (a ++ l).dropWhile p = l.dropWhile p := by
  induction a with
  | nil => rfl
  | cons x xs ih =>
    rw [List.cons_append, List.dropWhile_cons, if_pos (h x (by simp))]
    exact ih (fun y hy => h y (by simp [hy]))

/-- Taking while a predicate holds stops exactly at the first failure. -/
theorem takeWhile_append_stop {α : Type _} {p : α → Bool} {b : List α}
    {d : α} {c : List α} (hb : ∀ x ∈ b, p x = true) (hd : p d = false) :
    (b ++ d :: c).takeWhile p = b := by
  induction b with
  | nil => simp [List.takeWhile_cons, hd]
  | cons x xs ih =>
    rw [List.cons_append, List.takeWhile_cons, if_pos (hb x (by simp))]
    rw [ih (fun y hy => hb y (by simp [hy]))]

/-- The length of a filter-map is the number of elements it keeps. -/
theorem length_filterMap_eq {α β : Type _} (f : α → Option β) (l : List α) :
    (l.filterMap f).length = (l.filter (fun x => (f x).isSome)).length := by
  induction l with
  | nil => rfl
  | cons x xs ih =>
    cases hf : f x <;>
      simp [List.filterMap_cons, List.filter_cons, hf, ih]

/-- The parser on a well-formed listing: header lines, an opening dash line,
the body, a closing dash line and a trailer reduce to a filtered map of the
matcher over the body alone. -/
theorem parse_split {text : String} {a b c : List (List Char)}
    {d1 d2 : List Char}
    (hsplit : splitlines text.data = a ++ d1 :: (b ++ d2 :: c))
    (ha : ∀ l ∈ a, startsWithDashes l = false)
    (hd1 : startsWithDashes d1 = true)
    (hb : ∀ l ∈ b, startsWithDashes l = false)
    (hd2 : startsWithDashes d2 = true) :
    parse_7z_listing text = b.filterMap matchLine := by
  rw [parse_characterization, hsplit]
  rw [dropWhile_append_all (fun x hx => by simp [ha x hx])]
  rw [List.dropWhile_cons, if_neg (by simp [hd1]), List.drop_one,
    List.tail_cons]
  rw [takeWhile_append_stop (fun x hx => by simp [hb x hx])
    (by simp [hd2])]

/-- Inversion of a successful line match down to the built entry: the raw
name capture is non-empty and the entry stores its strip, the attribute is
five attribute characters, `is_directory` tests its first character, the
date and time are empty together, and a match with no date starts with
whitespace while any match starts with whitespace or a digit. -/
theorem matchLine_inv {line : List Char} {e : Entry}
    (h : matchLine line = some e) :
    ∃ caps A N, runMatch line_pattern line = some caps ∧
      caps .gattr = some A ∧ A.length = 5 ∧
      (∀ c ∈ A, isAttrChar c = true) ∧
      caps .gname = some N ∧ N ≠ [] ∧
      e.attr = A ∧ e.name = pyStrip N ∧
      e.is_directory = ['D'].isPrefixOf A ∧
      (e.date = [] ↔ e.time = []) ∧
      (e.date = [] → ∃ c0 t, line = c0 :: t ∧ isPySpace c0 = true) ∧
      (∃ c0 t, line = c0 :: t ∧
        (isPySpace c0 = true ∨ isPyDigit c0 = true)) := by
  rw [matchLine] at h
  cases hrm : runMatch line_pattern line with
  | none => rw [hrm] at h; exact absurd h (by simp)
  | some caps =>
    rw [hrm] at h
    obtain ⟨A, N, hattr, hAlen, hAcls, hname, hNne, hdt⟩ :=
      runMatch_extract hrm
    have he : e = { date := (caps .gdate).getD [],
                    time := (caps .gtime).getD [],
                    attr := (caps .gattr).getD [],
                    size := digitsToNat ((caps .gsize).getD ['0']),
                    compressed_size := digitsToNat ((caps .gcomp).getD ['0']),
                    name := pyStrip ((caps .gname).getD []),
                    is_directory :=
                      ['D'].isPrefixOf ((caps .gattr).getD []) } :=
      (Option.some.inj h).symm
    refine ⟨caps, A, N, rfl, hattr, hAlen, hAcls, hname, hNne, ?_, ?_, ?_,
      ?_, ?_, ?_⟩
    · rw [he]; simp [hattr]
    · rw [he]; simp [hname]
    · rw [he]; simp [hattr]
    · rcases hdt with ⟨hd, ht, _⟩ | ⟨D, T, hd, ht, hDne, hTne, _⟩
      · rw [he]; simp [hd, ht]
      · rw [he]
        simp only [hd, ht, Option.getD]
        constructor
        · intro hc; exact absurd hc hDne
        · intro hc; exact absurd hc hTne
    · rcases hdt with ⟨hd, _, hhead⟩ | ⟨D, T, hd, _, hDne, _, _⟩
      · intro _; exact hhead
      · intro hdate
        rw [he] at hdate
        simp only [hd, Option.getD] at hdate
        exact absurd hdate hDne
    · rcases hdt with ⟨_, _, c0, t, hline, hsp⟩ |
        ⟨D, T, _, _, _, _, c0, t, hline, hc0⟩
      · exact ⟨c0, t, hline, Or.inl hsp⟩
      · exact ⟨c0, t, hline, hc0⟩

/-!
The claims.
-/

/-- C1: a line starting with the dash run toggles the scanning state: the
first such line switches it on and is itself skipped, the second switches it
off and stops scanning at once, so the output is exactly the filtered match
of the lines strictly between them, whatever follows the second dash line. -/
theorem c1_dash_toggle {text : String} {a b c : List (List Char)}
    {d1 d2 : List Char}
    (hsplit : splitlines text.data = a ++ d1 :: (b ++ d2 :: c))
    (ha : ∀ l ∈ a, startsWithDashes l = false)
    (hd1 : startsWithDashes d1 = true)
    (hb : ∀ l ∈ b, startsWithDashes l = false)
    (hd2 : startsWithDashes d2 = true) :
    parse_7z_listing text = b.filterMap matchLine :=
  parse_split hsplit ha hd1 hb hd2

/-- Witness for C1 at a concrete listing. -/
theorem c1_dash_toggle_witness :
    splitlines ("hdr\n----------\n ..... f\n----------\ntrail").data =
      [("hdr").data] ++ ("----------").data ::
        ([(" ..... f").data] ++ ("----------").data :: [("trail").data]) ∧
    parse_7z_listing "hdr\n----------\n ..... f\n----------\ntrail" =
      [(" ..... f").data].filterMap matchLine :=
  ⟨by decide,
    @c1_dash_toggle "hdr\n----------\n ..... f\n----------\ntrail"
      [("hdr").data] [(" ..... f").data] [("trail").data]
      ("----------").data ("----------").data
      (by decide) (by decide) (by decide) (by decide) (by decide)⟩

/-- C2 counterexample: a line consisting of whitespace, an attribute field
and trailing whitespace only matches the entry pattern (the name group
captures a single whitespace character by backtracking), and the stored,
stripped name of the resulting entry is empty. -/
theorem c2_counterexample :
    ∃ e, matchLine (" .....  ").data = some e ∧ e.name = [] := by
  decide

/-- C2 (amended): for every line that matches the entry pattern, the raw
captured name group is a non-empty string; the entry's stored name is its
whitespace-stripped value, which can be empty when the capture is entirely
whitespace. -/
theorem c2_raw_name_nonempty {line : List Char} {e : Entry}
    (h : matchLine line = some e) :
    ∃ caps N, runMatch line_pattern line = some caps ∧
      caps .gname = some N ∧ N ≠ [] ∧ e.name = pyStrip N := by
  obtain ⟨caps, A, N, hrm, _, _, _, hname, hNne, _, hename, _, _, _, _⟩ :=
    matchLine_inv h
  exact ⟨caps, N, hrm, hname, hNne, hename⟩

/-- Witness for the amended C2 at a concrete line. -/
theorem c2_raw_name_nonempty_witness :
    matchLine (" ..... x").data = some
      (⟨[], [], (".....").data, 0, 0, ['x'], false⟩ : Entry) ∧
    ∃ caps N, runMatch line_pattern (" ..... x").data = some caps ∧
      caps .gname = some N ∧ N ≠ [] ∧
      (⟨[], [], (".....").data, 0, 0, ['x'], false⟩ : Entry).name =
        pyStrip N :=
  ⟨by decide,
    @c2_raw_name_nonempty (" ..... x").data
      ⟨[], [], (".....").data, 0, 0, ['x'], false⟩ (by decide)⟩

/-- C3: a line inside the listing made of whitespace, an attribute field,
whitespace and a bare name (one that starts with neither a digit nor
whitespace) produces an entry with empty date and time, zero size and
compressed size, and the trimmed name. -/
theorem c3_attr_name_only {text : String} {a b1 b2 c : List (List Char)}
    {d1 d2 ws1 A ws2 nm : List Char}
    (hsplit : splitlines text.data =
      a ++ d1 :: ((b1 ++ (ws1 ++ A ++ ws2 ++ nm) :: b2) ++ d2 :: c))
    (ha : ∀ l ∈ a, startsWithDashes l = false)
    (hd1 : startsWithDashes d1 = true)
    (hb : ∀ l ∈ b1 ++ (ws1 ++ A ++ ws2 ++ nm) :: b2,
      startsWithDashes l = false)
    (hd2 : startsWithDashes d2 = true)
    (hws1ne : ws1 ≠ []) (hws1 : ∀ ch ∈ ws1, isPySpace ch = true)
    (hAlen : A.length = 5) (hA : ∀ ch ∈ A, isAttrChar ch = true)
    (hws2ne : ws2 ≠ []) (hws2 : ∀ ch ∈ ws2, isPySpace ch = true)
    (hnmne : nm ≠ []) (hnm : ∀ ch ∈ nm, isDotChar ch = true)
    (hn0sp : ∀ ch, nm.head? = some ch → isPySpace ch = false)
    (hn0dg : ∀ ch, nm.head? = some ch → isPyDigit ch = false) :
    (⟨[], [], A, 0, 0, pyStrip nm, ['D'].isPrefixOf A⟩ : Entry) ∈
      parse_7z_listing text := by
  rw [parse_split hsplit ha hd1 hb hd2]
  exact List.mem_filterMap.mpr ⟨ws1 ++ A ++ ws2 ++ nm, by simp,
    matchLine_attr_name hws1ne hws1 hAlen hA hws2ne hws2 hnmne hnm
      hn0sp hn0dg⟩

/-- Witness for C3 at a concrete listing. -/
theorem c3_attr_name_only_witness :
    splitlines ("----------\n D.... folder\n----------").data =
      [] ++ ("----------").data ::
        (([] ++ ([' '] ++ ("D....").data ++ [' '] ++ ("folder").data) ::
          []) ++ ("----------").data :: []) ∧
    (⟨[], [], ("D....").data, 0, 0, pyStrip ("folder").data,
        ['D'].isPrefixOf ("D....").data⟩ : Entry) ∈
      parse_7z_listing "----------\n D.... folder\n----------" :=
  ⟨by decide,
    @c3_attr_name_only "----------\n D.... folder\n----------"
      [] [] [] [] ("----------").data ("----------").data
      [' '] ("D....").data [' '] ("folder").data
      (by decide) (by decide) (by decide) (by decide) (by decide)
      (by decide) (by decide) (by decide) (by decide) (by decide)
      (by decide) (by decide) (by decide) (by decide) (by decide)⟩

/-- C4: on a listing with two dash lines, the number of entries equals the
number of lines strictly between them that match the entry pattern. -/
theorem c4_entry_count {text : String} {a b c : List (List Char)}
    {d1 d2 : List Char}
    (hsplit : splitlines text.data = a ++ d1 :: (b ++ d2 :: c))
    (ha : ∀ l ∈ a, startsWithDashes l = false)
    (hd1 : startsWithDashes d1 = true)
    (hb : ∀ l ∈ b, startsWithDashes l = false)
    (hd2 : startsWithDashes d2 = true) :
    (parse_7z_listing text).length =
      (b.filter (fun l => (matchLine l).isSome)).length := by
  rw [parse_split hsplit ha hd1 hb hd2]
  exact length_filterMap_eq matchLine b

/-- Witness for C4 at a concrete listing with one matching and one
non-matching body line. -/
theorem c4_entry_count_witness :
    splitlines ("x\n----------\n ..... f\nbadline\n----------\ny").data =
      [("x").data] ++ ("----------").data ::
        ([(" ..... f").data, ("badline").data] ++
          ("----------").data :: [("y").data]) ∧
    (parse_7z_listing "x\n----------\n ..... f\nbadline\n----------\ny").length =
      ([(" ..... f").data, ("badline").data].filter
        (fun l => (matchLine l).isSome)).length :=
  ⟨by decide,
    @c4_entry_count "x\n----------\n ..... f\nbadline\n----------\ny"
      [("x").data] [(" ..... f").data, ("badline").data] [("y").data]
      ("----------").data ("----------").data
      (by decide) (by decide) (by decide) (by decide) (by decide)⟩

/-- C5: an entry is a directory exactly when the first character of its
attribute field is the directory marker. -/
theorem c5_is_directory {text : String} {e : Entry}
    (h : e ∈ parse_7z_listing text) :
    e.is_directory = true ↔ e.attr.head? = some 'D' := by
  rw [parse_characterization] at h
  obtain ⟨l, _, hml⟩ := List.mem_filterMap.mp h
  obtain ⟨caps, A, N, _, _, hAlen, _, _, _, hattr, _, hdir, _, _, _⟩ :=
    matchLine_inv hml
  rw [hdir, hattr]
  cases A with
  | nil => simp at hAlen
  | cons ach t =>
    rw [List.isPrefixOf]
    simp only [List.isPrefixOf_nil_left, Bool.and_true, beq_iff_eq,
      List.head?_cons, Option.some.injEq]
    exact ⟨fun hh => hh.symm, fun hh => hh.symm⟩

/-- Witness for C5 at a concrete entry. -/
theorem c5_is_directory_witness :
    (⟨[], [], ("D....").data, 0, 0, ['d'], true⟩ : Entry) ∈
      parse_7z_listing "----------\n D.... d\n----------" ∧
    ((⟨[], [], ("D....").data, 0, 0, ['d'], true⟩ : Entry).is_directory =
        true ↔
      (⟨[], [], ("D....").data, 0, 0, ['d'], true⟩ : Entry).attr.head? =
        some 'D') :=
  ⟨by decide,
    @c5_is_directory "----------\n D.... d\n----------"
      ⟨[], [], ("D....").data, 0, 0, ['d'], true⟩ (by decide)⟩

/-- C6: every entry's attribute field is exactly five characters, each the
directory marker or the placeholder. -/
theorem c6_attr_shape {text : String} {e : Entry}
    (h : e ∈ parse_7z_listing text) :
    e.attr.length = 5 ∧ ∀ ch ∈ e.attr, ch = 'D' ∨ ch = '.' := by
  rw [parse_characterization] at h
  obtain ⟨l, _, hml⟩ := List.mem_filterMap.mp h
  obtain ⟨caps, A, N, _, _, hAlen, hAcls, _, _, hattr, _, _, _, _, _⟩ :=
    matchLine_inv hml
  rw [hattr]
  refine ⟨hAlen, ?_⟩
  intro ch hch
  have hc := hAcls ch hch
  rw [isAttrChar, Bool.or_eq_true, beq_iff_eq, beq_iff_eq] at hc
  exact hc

/-- Witness for C6 at a concrete entry. -/
theorem c6_attr_shape_witness :
    (⟨[], [], (".....").data, 0, 0, ['f'], false⟩ : Entry) ∈
      parse_7z_listing "----------\n ..... f\n----------" ∧
    ((⟨[], [], (".....").data, 0, 0, ['f'], false⟩ : Entry).attr.length =
        5 ∧
      ∀ ch ∈ (⟨[], [], (".....").data, 0, 0, ['f'],
        false⟩ : Entry).attr, ch = 'D' ∨ ch = '.') :=
  ⟨by decide,
    @c6_attr_shape "----------\n ..... f\n----------"
      ⟨[], [], (".....").data, 0, 0, ['f'], false⟩ (by decide)⟩

/-- C7: lines before the first dash line and after the second contribute
nothing: the parse of the full text equals the parse of the dash-delimited
body alone, however many matching lines surround it. -/
theorem c7_outside_ignored {text : String} {a b c : List (List Char)}
    {d1 d2 : List Char}
    (hsplit : splitlines text.data = a ++ d1 :: (b ++ d2 :: c))
    (ha : ∀ l ∈ a, startsWithDashes l = false)
    (hd1 : startsWithDashes d1 = true)
    (hb : ∀ l ∈ b, startsWithDashes l = false)
    (hd2 : startsWithDashes d2 = true) :
    parse_7z_listing text = parseLines (d1 :: (b ++ [d2])) false := by
  rw [parse_split hsplit ha hd1 hb hd2, parseLines_outside,
    List.dropWhile_cons, if_neg (by simp [hd1]), List.drop_one,
    List.tail_cons, parseLines_inside,
    takeWhile_append_stop (fun x hx => by simp [hb x hx]) (by simp [hd2])]

/-- Witness for C7: surrounding lines that would match the pattern are
still ignored. -/
theorem c7_outside_ignored_witness :
    splitlines (" ..... a\n----------\n ..... f\n----------\n ..... z").data =
      [(" ..... a").data] ++ ("----------").data ::
        ([(" ..... f").data] ++ ("----------").data ::
          [(" ..... z").data]) ∧
    parse_7z_listing " ..... a\n----------\n ..... f\n----------\n ..... z" =
      parseLines (("----------").data :: ([(" ..... f").data] ++
        [("----------").data])) false :=
  ⟨by decide,
    @c7_outside_ignored " ..... a\n----------\n ..... f\n----------\n ..... z"
      [(" ..... a").data] [(" ..... f").data] [(" ..... z").data]
      ("----------").data ("----------").data
      (by decide) (by decide) (by decide) (by decide) (by decide)⟩

/-- C8: no entry ever has exactly one of date and time non-empty: the
optional group captures them together or not at all. -/
theorem c8_date_time_together {text : String} {e : Entry}
    (h : e ∈ parse_7z_listing text) :
    e.date = [] ↔ e.time = [] := by
  rw [parse_characterization] at h
  obtain ⟨l, _, hml⟩ := List.mem_filterMap.mp h
  obtain ⟨caps, A, N, _, _, _, _, _, _, _, _, _, hiff, _, _⟩ :=
    matchLine_inv hml
  exact hiff

/-- Witness for C8 at a concrete entry with both fields present. -/
theorem c8_date_time_together_witness :
    (⟨("2024-01-01").data, ("10:00:00").data, ("D....").data, 0, 0, ['d'],
        true⟩ : Entry) ∈
      parse_7z_listing "----------\n2024-01-01 10:00:00 D.... d\n----------" ∧
    ((⟨("2024-01-01").data, ("10:00:00").data, ("D....").data, 0, 0, ['d'],
        true⟩ : Entry).date = [] ↔
      (⟨("2024-01-01").data, ("10:00:00").data, ("D....").data, 0, 0,
        ['d'], true⟩ : Entry).time = []) :=
  ⟨by decide,
    @c8_date_time_together "----------\n2024-01-01 10:00:00 D.... d\n----------"
      ⟨("2024-01-01").data, ("10:00:00").data, ("D....").data, 0, 0, ['d'],
        true⟩ (by decide)⟩

/-- C9: the parser is total and degrades by omission: for every input text
it returns the filtered match of the lines strictly between the first dash
line and the next dash line or end of input, a line that fails the pattern
simply contributing nothing. -/
theorem c9_total_by_omission (text : String) :
    parse_7z_listing text =
    ((((splitlines text.data).dropWhile
        (fun l => !startsWithDashes l)).drop 1).takeWhile
      (fun l => !startsWithDashes l)).filterMap matchLine :=
  parse_characterization text

/-- C10: a line matched without a date starts with whitespace, and a line
whose attribute field sits at column zero (its first character is the
directory marker or the placeholder) never matches at all. -/
theorem c10_leading_whitespace :
    (∀ (line : List Char) (e : Entry), matchLine line = some e →
      e.date = [] → ∃ ch t, line = ch :: t ∧ isPySpace ch = true) ∧
    (∀ (ch : Char) (t : List Char), isAttrChar ch = true →
      matchLine (ch :: t) = none) := by
  constructor
  · intro line e hml hdate
    obtain ⟨caps, A, N, _, _, _, _, _, _, _, _, _, _, hnodate, _⟩ :=
      matchLine_inv hml
    exact hnodate hdate
  · intro ch t hch
    cases hml : matchLine (ch :: t) with
    | none => rfl
    | some e =>
      exfalso
      obtain ⟨caps, A, N, _, _, _, _, _, _, _, _, _, _, _, hhead⟩ :=
        matchLine_inv hml
      obtain ⟨c0, t0, hline, hc0⟩ := hhead
      have hceq : ch = c0 := by injection hline
      rw [← hceq] at hc0
      rcases hc0 with hsp | hdg
      · rw [attrChar_not_space hch] at hsp
        exact absurd hsp (by simp)
      · rw [attrChar_not_digit hch] at hdg
        exact absurd hdg (by simp)

/-- Witness for C10: a dateless matched line starting with a space, and an
attribute field at column zero failing to match. -/
theorem c10_leading_whitespace_witness :
    (∃ ch t, (" ..... x").data = ch :: t ∧ isPySpace ch = true) ∧
    matchLine ('D' :: ("....  x").data) = none :=
  ⟨c10_leading_whitespace.1 (" ..... x").data
      ⟨[], [], (".....").data, 0, 0, ['x'], false⟩
      (by decide) (by decide),
    c10_leading_whitespace.2 'D' ("....  x").data (by decide)⟩
